import Mathlib

/-
Verification development for the analytical core of the lecture-notes
coverage/concept/misconception system (backend/services).

Similarity scores are modelled as exact rationals; the embedding capability
is abstracted as an oracle mapping a pair of texts to the cosine similarity
of their embeddings (the code always consumes embeddings through
EmbeddingService.similarity, so only this composite enters the algorithms).
Text is modelled as List Char.
-/

set_option maxRecDepth 20000

namespace LCopilot

/-! ## Alignment service (alignment_service.py, find_covered_slides) -/

/-- running sum of the similarity scores of slides 0..i inclusive, the value
sum(similarities[:i+1]) computed in the cumulative loop. -/
def prefixSum (sims : List ℚ) (i : Nat) : ℚ := (sims.take (i + 1)).sum

/-- one iteration of the cumulative loop: state is (max_cumulative, best_index),
updated when the running sum strictly exceeds the recorded maximum. -/
def cumStep (sims : List ℚ) (s : ℚ × Nat) (i : Nat) : ℚ × Nat :=
  if s.1 < prefixSum sims i then (prefixSum sims i, i) else s

/-- state of the cumulative loop after iterating over indices 0..n-1,
starting from max_cumulative = 0 and best_index = 0. -/
def cumState (sims : List ℚ) (n : Nat) : ℚ × Nat :=
  (List.range n).foldl (cumStep sims) (0, 0)

/-- test of the threshold loop: does slide i's similarity exceed 0.3. -/
def thPred (sims : List ℚ) (i : Nat) : Bool :=
  decide ((3 : ℚ) / 10 < sims.getD i 0)

/-- one iteration of the threshold loop: any slide whose similarity exceeds
0.3 raises best_index to at least its own index. -/
def thStep (sims : List ℚ) (b i : Nat) : Nat :=
  if thPred sims i then max b i else b

/-- AlignmentService.find_covered_slides, abstracted over the per-slide
similarity scores (one score per stored slide, in order); returns 0 when the
store yields no slides. -/
def find_covered_slides (sims : List ℚ) : Nat :=
  if sims.isEmpty then 0
  else (List.range sims.length).foldl (thStep sims) (cumState sims sims.length).2

/-- the list of running sums, one per candidate index. -/
def prefixSums (sims : List ℚ) : List ℚ :=
  (List.range sims.length).map (prefixSum sims)

/-- earliest position of value a in a list (length of the list if absent). -/
def idxOfQ (a : ℚ) : List ℚ → Nat
  | [] => 0
  | x :: xs => if x = a then 0 else idxOfQ a xs + 1

/-- earliest index of a list achieving its maximum value (0 for an empty
list); spec-level formulation of the cumulative-best heuristic. -/
def earliestArgmax (l : List ℚ) : Nat :=
  match l with
  | [] => 0
  | x :: xs => idxOfQ (xs.foldl max x) (x :: xs)

/-- largest index whose individual similarity exceeds 0.3, and 0 when no
index qualifies; spec-level formulation of the threshold heuristic. -/
def specThresholdIdx (sims : List ℚ) : Nat :=
  ((List.range sims.length).filter (thPred sims)).foldl max 0

/-- coverage estimate exactly as the claim words it: max of the
earliest-argmax of the running sums and the threshold heuristic. -/
def claimCoverage (sims : List ℚ) : Nat :=
  if sims.isEmpty then 0
  else max (earliestArgmax (prefixSums sims)) (specThresholdIdx sims)

/-- amended cumulative heuristic: the earliest index achieving the maximum
running sum, provided that maximum is positive; otherwise 0 (the loop
initialises its recorded maximum to 0, so a non-positive maximum never
overwrites the initial index 0). -/
def amendedCumIdx (sims : List ℚ) : Nat :=
  if 0 < (prefixSums sims).foldl max 0 then earliestArgmax (prefixSums sims) else 0

/-- coverage estimate as amended: max of the amended cumulative heuristic and
the threshold heuristic. -/
def amendedCoverage (sims : List ℚ) : Nat :=
  if sims.isEmpty then 0
  else max (amendedCumIdx sims) (specThresholdIdx sims)

/-! ## character and string helpers (ASCII fragment of the Python regexes) -/

/-- whitespace characters recognised by str.strip, str.split and regex \s. -/
def isPySpace (c : Char) : Bool :=
  c == ' ' || c == '\t' || c == '\n' || c == '\r' || c == '\x0b' || c == '\x0c'

/-- str.strip: remove leading and trailing whitespace. -/
def pyStrip (s : List Char) : List Char :=
  ((s.dropWhile isPySpace).reverse.dropWhile isPySpace).reverse

/-- str.lower on the ASCII fragment. -/
def toLowerStr (s : List Char) : List Char := s.map Char.toLower

/-- substring test: does pat occur contiguously in the second argument
(Python "pat in s", regex search for a literal pattern). -/
def containsSub (pat : List Char) : List Char → Bool
  | [] => pat.isEmpty
  | c :: rest => pat.isPrefixOf (c :: rest) || containsSub pat rest

/-- regex word character \w on the ASCII fragment. -/
def isWordChar (c : Char) : Bool := c.isAlpha || c.isDigit || c == '_'

/-- a word boundary holds immediately before this suffix. -/
def boundaryOk : List Char → Bool
  | [] => true
  | c :: _ => !isWordChar c

/-- scan for an occurrence of the all-letter pattern pat delimited by word
boundaries on both sides; the flag records whether the previous character
was a non-word character (true at the start of the string). -/
def hasWordAux (pat : List Char) : Bool → List Char → Bool
  | _, [] => false
  | prevNonWord, c :: rest =>
      (prevNonWord && pat.isPrefixOf (c :: rest)
        && boundaryOk ((c :: rest).drop pat.length))
      || hasWordAux pat (!isWordChar c) rest

/-- regex search for a whole word with boundaries on both sides. -/
def hasWordMatch (pat l : List Char) : Bool := hasWordAux pat true l

/-- consume a run of lowercase letters and test that the character ending
the run (if any) is not a word character. -/
def lowerRunBoundary : List Char → Bool
  | [] => true
  | c :: rest => if c.isLower then lowerRunBoundary rest else !isWordChar c

/-- scan for a match of the regex for a capitalised word: an uppercase letter
preceded by a word boundary, followed by one or more lowercase letters and a
word boundary. -/
def hasCapWordAux : Bool → List Char → Bool
  | _, [] => false
  | prevNonWord, c :: rest =>
      (prevNonWord && c.isUpper
        && (match rest with
            | [] => false
            | d :: _ => d.isLower && lowerRunBoundary rest))
      || hasCapWordAux (!isWordChar c) rest

/-- regex search for an uppercase letter followed by lowercase letters, with
word boundaries on both sides. -/
def hasCapWord (l : List Char) : Bool := hasCapWordAux true l

/-- regex search for a digit. -/
def hasDigit (s : List Char) : Bool := s.any Char.isDigit

/-- regex search for a run of at least 3 alphabetic characters. -/
def hasAlphaRun3 : List Char → Bool
  | a :: b :: c :: rest =>
      (a.isAlpha && b.isAlpha && c.isAlpha) || hasAlphaRun3 (b :: c :: rest)
  | _ => false

/-- str.split with no separator: split on whitespace runs, dropping empty
fragments; the accumulator collects the current word reversed. -/
def pySplitAux : List Char → List Char → List (List Char)
  | [], acc => if acc.isEmpty then [] else [acc.reverse]
  | c :: rest, acc =>
      if isPySpace c then
        if acc.isEmpty then pySplitAux rest []
        else acc.reverse :: pySplitAux rest []
      else pySplitAux rest (c :: acc)

/-- str.split with no separator. -/
def pySplit (s : List Char) : List (List Char) := pySplitAux s []

/-! ## concept filter (concept_detector.py, _filter_concepts) -/

/-- the stop-word list of the filter. -/
def stop_words : List (List Char) :=
  ["the", "and", "or", "but", "in", "on", "at", "to", "for", "of", "with",
   "by", "a", "an", "is", "are", "was", "were"].map String.toList

/-- number of stop words among the given words. -/
def stopCount (ws : List (List Char)) : Nat :=
  (ws.filter (fun w => stop_words.contains w)).length

/-- search for a bullet glyph, one of the characters of the class in the
first noise pattern. -/
def hasBulletGlyph (l : List Char) : Bool :=
  l.any (fun c => c == '•' || c == '▪' || c == '◦')

/-- the noise_patterns disjunction, evaluated on the lowercased concept. -/
def noiseCheck (l : List Char) : Bool :=
  hasBulletGlyph l || containsSub ['-', '-'] l || containsSub ['_', '_', '_'] l
    || hasWordMatch ("slide".toList) l || hasWordMatch ("page".toList) l
    || hasWordMatch ("figure".toList) l || hasWordMatch ("table".toList) l
    || hasWordMatch ("university".toList) l || hasWordMatch ("department".toList) l

/-- character class of the leading bullet/numbering regex: digits, dot,
closing parenthesis, hyphen. -/
def isPrefClass (c : Char) : Bool := c.isDigit || c == '.' || c == ')' || c == '-'

/-- re.sub of the leading bullet/numbering regex: when the string starts
with at least one class character, drop the maximal run of class characters
and then the following whitespace run; otherwise leave the string alone. -/
def stripBullets (s : List Char) : List Char :=
  if s.head?.any isPrefClass then (s.dropWhile isPrefClass).dropWhile isPySpace else s

/-- a string carries no leading bullet/numbering character. -/
def bulletFree (l : List Char) : Bool := !(l.head?.any isPrefClass)

/-- the sequence of keep-tests applied to the cleaned concept: length/digit/
capitalised-word test, noise patterns, stop-word ratio over the split words
(ratio over 0.65 with fewer than 5 words rejects), and the 3-letter run. -/
def passesChecks (c : List Char) : Bool :=
  !(decide (c.length < 6) && !hasDigit c && !hasCapWord c)
  && !noiseCheck (toLowerStr c)
  && (let ws := pySplit (toLowerStr c)
      !ws.isEmpty && !(decide (13 * ws.length < 20 * stopCount ws) && decide (ws.length < 5)))
  && hasAlphaRun3 c

/-- per-concept body of the filter loop: strip, remove the leading
bullet/numbering prefix, then keep the cleaned string iff every test
passes. -/
def cleanConcept (concept : List Char) : Option (List Char) :=
  if concept.isEmpty then none
  else
    let c1 := pyStrip concept
    if c1.isEmpty then none
    else
      let clean := stripBullets c1
      if passesChecks clean then some clean else none

/-- contribution of a single raw concept to the filtered set. -/
def cleanSet (c : List Char) : Finset (List Char) :=
  match cleanConcept c with
  | some x => {x}
  | none => ∅

/-- ConceptDetector._filter_concepts on a set of concept strings. -/
def filter_concepts (S : Finset (List Char)) : Finset (List Char) :=
  S.biUnion cleanSet

/-- ConceptDetector.extract_concepts_from_text; the extraction strategy
(LLM-backed or the deterministic regex fallback) is abstracted as a
parameter, mirroring the strategy polymorphism of the design: the guard
returns the empty set for empty or whitespace-only text before any strategy
runs. -/
def extract_concepts_from_text (extractor : List Char → Finset (List Char))
    (text : List Char) : Finset (List Char) :=
  if (pyStrip text).isEmpty then ∅
  else filter_concepts (extractor text)

/-! ## gap analyzer (concept_detector.py, find_missing_concepts) -/

/-- maximum similarity of concept m against every note concept (the true
maximum, 0 for an empty list). -/
def maxSimTo (sim : List Char → List Char → ℚ) (m : List Char) :
    List (List Char) → ℚ
  | [] => 0
  | n :: ns => ns.foldl (fun acc x => max acc (sim m x)) (sim m n)

/-- ConceptDetector.find_missing_concepts; sim is the composite oracle
giving the cosine similarity of the embeddings of two concept strings, and
set iteration order is modelled as the sorted order of the finite set. -/
def find_missing_concepts (sim : List Char → List Char → ℚ)
    (lecture_concepts notes_concepts : Finset (List Char)) : List (List Char) :=
  let lectureF := filter_concepts lecture_concepts
  let notesF := filter_concepts notes_concepts
  let missing := lectureF \ notesF
  if missing = ∅ then []
  else
    let missing_list := missing.sort (· ≤ ·)
    let notes_list := notesF.sort (· ≤ ·)
    if notes_list.isEmpty then missing_list.take 10
    else
      (missing_list.filter (fun m =>
        notes_list.foldl (fun acc n => max acc (sim m n)) 0 < (3 : ℚ)/4)).take 10

/-! ## misconception detector (misconception_detector.py) -/

/-- sentence-end characters of the splitting regex. -/
def isSentEnd (c : Char) : Bool := c == '.' || c == '!' || c == '?'

/-- re.split on a sentence-end character followed by whitespace: the
separator (one punctuation character plus the following whitespace run) is
removed. The accumulator collects the current fragment reversed; the flag
records that the scan is inside the whitespace run of a separator, which is
consumed greedily. -/
def regexSplitSentAux : List Char → List Char → Bool → List (List Char)
  | [], acc, _ => [acc.reverse]
  | c :: rest, acc, skipping =>
      if skipping && isPySpace c then regexSplitSentAux rest acc true
      else if isSentEnd c && (match rest with | d :: _ => isPySpace d | [] => false) then
        acc.reverse :: regexSplitSentAux rest [] true
      else regexSplitSentAux rest (c :: acc) false

/-- re.split of the sentence-splitting regex over a text. -/
def regexSplitSent (s : List Char) : List (List Char) := regexSplitSentAux s [] false

/-- MisconceptionDetector._split_into_sentences: split, then keep the
stripped fragments whose length exceeds 10. -/
def split_into_sentences (text : List Char) : List (List Char) :=
  ((regexSplitSent text).filter (fun s => 10 < (pyStrip s).length)).map pyStrip

/-- scanner for the number-token regex findall: a maximal digit run, an
optional dot, then a maximal digit run (possibly empty); matches do not
overlap. The state is none outside a match, or the token collected so far
(reversed) with a flag recording that the optional dot has been consumed. -/
def findNumAux : List Char → Option (List Char × Bool) → List (List Char)
  | [], none => []
  | [], some st => [st.1.reverse]
  | c :: rest, none =>
      if c.isDigit then findNumAux rest (some ([c], false))
      else findNumAux rest none
  | c :: rest, some st =>
      if c.isDigit then findNumAux rest (some (c :: st.1, st.2))
      else if !st.2 && c == '.' then findNumAux rest (some (c :: st.1, true))
      else st.1.reverse :: findNumAux rest none

/-- regex findall of number tokens over a sentence. -/
def findNumbers (l : List Char) : List (List Char) := findNumAux l none

/-- the fixed antonym/negation pair list of the heuristic classifier. -/
def contradiction_words : List (List Char × List Char) :=
  [("not".toList, "is".toList), ("no".toList, "yes".toList),
   ("never".toList, "always".toList), ("cannot".toList, "can".toList),
   ("wrong".toList, "correct".toList), ("incorrect".toList, "correct".toList)]

/-- the antonym-pair accumulation loop of _check_contradiction: 0.3 per pair
matched in either direction, each pair counted once. -/
def antonymScore (nl ll : List Char) : ℚ :=
  contradiction_words.foldl
    (fun acc p =>
      if containsSub p.1 nl && containsSub p.2 ll then acc + 3/10
      else if containsSub p.2 nl && containsSub p.1 ll then acc + 3/10
      else acc) 0

/-- MisconceptionDetector._check_contradiction; sim is the composite oracle
giving the cosine similarity of the embeddings of the two sentences
(re-embedded in isolation, as in the numeric branch). -/
def check_contradiction (sim : List Char → List Char → ℚ)
    (note lecture : List Char) : ℚ :=
  min
    (if (!(findNumbers note).isEmpty && !(findNumbers lecture).isEmpty)
        && (findNumbers note).all (fun t => !(findNumbers lecture).contains t) then
       (if (3 : ℚ)/5 < sim note lecture then
          antonymScore (toLowerStr note) (toLowerStr lecture) + 2/5
        else antonymScore (toLowerStr note) (toLowerStr lecture))
     else antonymScore (toLowerStr note) (toLowerStr lecture))
    1

/-- MisconceptionDetector._extract_correction: the matched lecture sentence
truncated to 200 characters. -/
def extract_correction (lecture_sentence : List Char) : List Char :=
  lecture_sentence.take 200

/-- a reported misconception: the note sentence, the suggested correction,
and the 0-based position of the note sentence. -/
structure Misconception where
  text : List Char
  suggestion : List Char
  position : Nat
deriving DecidableEq

/-- the inner argmax loop of detect: maximum similarity and index of the
most similar lecture sentence, starting from similarity 0 and no index. -/
def bestMatch (sim : List Char → List Char → ℚ) (ns : List Char)
    (ls : List (List Char)) : ℚ × Option Nat :=
  ls.enum.foldl
    (fun s p => if s.1 < sim ns p.2 then (sim ns p.2, some p.1) else s) (0, none)

/-- body of the per-note-sentence loop of detect: find the most similar
lecture sentence, and when similar enough (over 0.5) and the contradiction
score exceeds the 0.3 threshold, report a misconception carrying the note
sentence, the truncated matched lecture sentence and the sentence index. -/
def detectStep (sim : List Char → List Char → ℚ) (ls : List (List Char))
    (p : Nat × List Char) : Option Misconception :=
  match bestMatch sim p.2 ls with
  | (m, some j) =>
      if (1 : ℚ)/2 < m then
        if (3 : ℚ)/10 < check_contradiction sim p.2 (ls.getD j []) then
          some ⟨p.2, extract_correction (ls.getD j []), p.1⟩
        else none
      else none
  | (_, none) => none

/-- MisconceptionDetector.detect on the heuristic path (no LLM configured);
sim is the composite embedding-similarity oracle on sentence pairs, and
slide_texts the texts of the stored slides in order. -/
def detect (sim : List Char → List Char → ℚ) (notes_text : List Char)
    (slide_texts : List (List Char)) : List Misconception :=
  let note_sentences := split_into_sentences notes_text
  let lecture_sentences := split_into_sentences (List.intercalate [' '] slide_texts)
  note_sentences.enum.filterMap (detectStep sim lecture_sentences)

/-- maximum of 0 and the running sums over indices below n. -/
def maxPrefix (sims : List ℚ) (n : Nat) : ℚ :=
  ((List.range n).map (prefixSum sims)).foldl max 0

/-- the first character, if any, is not whitespace. -/
def noLead (l : List Char) : Prop :=
  ∀ c, l.head? = some c → isPySpace c = false

/-- the last character, if any, is not whitespace. -/
def noTrail (l : List Char) : Prop :=
  ∀ c, l.getLast? = some c → isPySpace c = false

/-! ## general fold lemmas -/

theorem foldl_max_shift {γ : Type} [LinearOrder γ] :
    ∀ (l : List γ) (a b : γ), l.foldl max (max a b) = max a (l.foldl max b) := by
  intro l
  induction l with
  | nil => intro a b; rfl
  | cons c l ih =>
      intro a b
      show l.foldl max (max (max a b) c) = max a (l.foldl max (max b c))
      rw [max_assoc, ih]

theorem self_le_foldl_max {γ : Type} [LinearOrder γ] :
    ∀ (l : List γ) (x : γ), x ≤ l.foldl max x := by
  intro l
  induction l with
  | nil => intro x; exact le_refl x
  | cons c l ih =>
      intro x
      exact le_trans (le_max_left x c) (ih (max x c))

theorem foldl_max_le_mem {γ : Type} [LinearOrder γ] :
    ∀ (l : List γ) (x y : γ), y ∈ l → y ≤ l.foldl max x := by
  intro l
  induction l with
  | nil => intro x y hy; cases hy
  | cons c l ih =>
      intro x y hy
      rcases List.mem_cons.mp hy with h | h
      · subst h
        exact le_trans (le_max_right x y) (self_le_foldl_max l (max x y))
      · exact ih (max x c) y h

theorem foldl_max_mem {γ : Type} [LinearOrder γ] :
    ∀ (l : List γ) (x : γ), l.foldl max x ∈ x :: l := by
  intro l
  induction l with
  | nil => intro x; exact List.mem_singleton_self x
  | cons c l ih =>
      intro x
      have h := ih (max x c)
      rcases List.mem_cons.mp h with h | h
      · show List.foldl max (max x c) l ∈ x :: c :: l
        rw [h]
        rcases max_choice x c with hm | hm
        · rw [hm]; exact List.mem_cons_self _ _
        · rw [hm]; exact List.mem_cons_of_mem _ (List.mem_cons_self _ _)
      · exact List.mem_cons_of_mem _ (List.mem_cons_of_mem _ h)

theorem idxOfQ_spec :
    ∀ (l : List ℚ) (k : Nat) (a : ℚ), k < l.length →
      l.getD k 0 = a → (∀ j, j < k → l.getD j 0 ≠ a) → idxOfQ a l = k := by
  intro l
  induction l with
  | nil => intro k a hk; cases hk
  | cons x xs ih =>
      intro k a hk hget hlt
      cases k with
      | zero =>
          simp only [List.getD_cons_zero] at hget
          simp [idxOfQ, hget]
      | succ k =>
          have hx : x ≠ a := by
            have := hlt 0 (Nat.succ_pos k)
            simpa using this
          simp only [idxOfQ, if_neg hx]
          have hk' : k < xs.length := Nat.lt_of_succ_lt_succ hk
          have hget' : xs.getD k 0 = a := by simpa using hget
          have hlt' : ∀ j, j < k → xs.getD j 0 ≠ a := by
            intro j hj
            have := hlt (j + 1) (Nat.succ_lt_succ hj)
            simpa using this
          rw [ih k a hk' hget' hlt']

/-! ## cumulative-loop invariant -/

theorem maxPrefix_succ (sims : List ℚ) (n : Nat) :
    maxPrefix sims (n + 1) = max (maxPrefix sims n) (prefixSum sims n) := by
  unfold maxPrefix
  rw [List.range_succ, List.map_append, List.foldl_append]
  rfl

theorem maxPrefix_nonneg (sims : List ℚ) (n : Nat) : 0 ≤ maxPrefix sims n :=
  self_le_foldl_max _ 0

theorem prefixSum_le_maxPrefix (sims : List ℚ) {j n : Nat} (h : j < n) :
    prefixSum sims j ≤ maxPrefix sims n := by
  apply foldl_max_le_mem
  exact List.mem_map_of_mem _ (List.mem_range.mpr h)

theorem cumState_succ (sims : List ℚ) (n : Nat) :
    cumState sims (n + 1) = cumStep sims (cumState sims n) n := by
  unfold cumState
  rw [List.range_succ, List.foldl_append]
  rfl

theorem cum_invariant (sims : List ℚ) :
    ∀ n : Nat,
      (cumState sims n).1 = maxPrefix sims n ∧
      (0 < maxPrefix sims n →
        (cumState sims n).2 < n ∧
        prefixSum sims (cumState sims n).2 = maxPrefix sims n ∧
        ∀ j, j < (cumState sims n).2 → prefixSum sims j < maxPrefix sims n) ∧
      (¬ 0 < maxPrefix sims n → (cumState sims n).2 = 0) := by
  intro n
  induction n with
  | zero =>
      refine ⟨rfl, ?_, fun _ => rfl⟩
      intro h
      exact absurd h (by simp [maxPrefix])
  | succ n ih =>
      obtain ⟨hfst, hpos, hneg⟩ := ih
      rw [cumState_succ, maxPrefix_succ]
      unfold cumStep
      by_cases hlt : (cumState sims n).1 < prefixSum sims n
      · rw [if_pos hlt]
        have hMlt : maxPrefix sims n < prefixSum sims n := hfst ▸ hlt
        have hmax : max (maxPrefix sims n) (prefixSum sims n) = prefixSum sims n :=
          max_eq_right (le_of_lt hMlt)
        refine ⟨by simp [hmax], ?_, ?_⟩
        · intro _
          refine ⟨Nat.lt_succ_self n, by simp [hmax], ?_⟩
          intro j hj
          have hj' : j < n := hj
          calc prefixSum sims j ≤ maxPrefix sims n := prefixSum_le_maxPrefix sims hj'
            _ < prefixSum sims n := hMlt
            _ = max (maxPrefix sims n) (prefixSum sims n) := hmax.symm
        · intro hnpos
          have h0 : 0 < prefixSum sims n :=
            lt_of_le_of_lt (maxPrefix_nonneg sims n) hMlt
          exact absurd (lt_max_of_lt_right h0) hnpos
      · rw [if_neg hlt]
        have hPle : prefixSum sims n ≤ maxPrefix sims n := le_of_not_lt (hfst ▸ hlt)
        have hmax : max (maxPrefix sims n) (prefixSum sims n) = maxPrefix sims n :=
          max_eq_left hPle
        refine ⟨by simp [hmax, hfst], ?_, ?_⟩
        · intro hp
          rw [hmax] at hp
          obtain ⟨h1, h2, h3⟩ := hpos hp
          exact ⟨Nat.lt_succ_of_lt h1, by rw [hmax]; exact h2, fun j hj => by
            rw [hmax]; exact h3 j hj⟩
        · intro hp
          rw [hmax] at hp
          exact hneg hp

/-! ## threshold-loop characterisation -/

theorem thFold_eq (sims : List ℚ) :
    ∀ (l : List Nat) (b : Nat),
      l.foldl (thStep sims) b = max b ((l.filter (thPred sims)).foldl max 0) := by
  intro l
  induction l with
  | nil => intro b; simp
  | cons i l ih =>
      intro b
      rw [List.filter_cons]
      by_cases hc : thPred sims i
      · rw [if_pos hc]
        have hstep : List.foldl (thStep sims) b (i :: l)
            = List.foldl (thStep sims) (max b i) l := by
          show List.foldl (thStep sims) (thStep sims b i) l = _
          rw [thStep, if_pos hc]
        rw [hstep, ih (max b i)]
        have h1 : List.foldl max 0 (i :: l.filter (thPred sims))
            = max i (List.foldl max 0 (l.filter (thPred sims))) := by
          show List.foldl max (max 0 i) (l.filter (thPred sims)) = _
          rw [Nat.zero_max, ← Nat.max_zero i, foldl_max_shift, Nat.max_zero]
        rw [h1, max_assoc]
      · rw [if_neg hc]
        have hstep : List.foldl (thStep sims) b (i :: l)
            = List.foldl (thStep sims) b l := by
          show List.foldl (thStep sims) (thStep sims b i) l = _
          rw [thStep, if_neg hc]
        rw [hstep, ih b]

theorem find_covered_eq (sims : List ℚ) (h : ¬ sims.isEmpty) :
    find_covered_slides sims
      = max (cumState sims sims.length).2 (specThresholdIdx sims) := by
  unfold find_covered_slides
  rw [if_neg h, thFold_eq]
  rfl

theorem prefixSums_getD (sims : List ℚ) {k : Nat} (hk : k < sims.length) :
    (prefixSums sims).getD k 0 = prefixSum sims k := by
  unfold prefixSums
  rw [List.getD_eq_getElem?_getD, List.getElem?_map, List.getElem?_range hk]
  rfl

theorem prefixSums_length (sims : List ℚ) :
    (prefixSums sims).length = sims.length := by
  unfold prefixSums
  rw [List.length_map, List.length_range]

theorem cumState_snd_eq (sims : List ℚ) :
    (cumState sims sims.length).2 = amendedCumIdx sims := by
  have hM : (prefixSums sims).foldl max 0 = maxPrefix sims sims.length := rfl
  by_cases hp : 0 < maxPrefix sims sims.length
  · obtain ⟨hk, hPk, hjlt⟩ := (cum_invariant sims sims.length).2.1 hp
    have hn : 0 < sims.length := lt_of_le_of_lt (Nat.zero_le _) hk
    have hlen : 0 < (prefixSums sims).length := by rw [prefixSums_length]; exact hn
    unfold amendedCumIdx
    rw [if_pos (hM ▸ hp)]
    rcases hps : prefixSums sims with _ | ⟨x, xs⟩
    · rw [hps] at hlen; cases hlen
    · have hT : xs.foldl max x = maxPrefix sims sims.length := by
        have h1 : maxPrefix sims sims.length = max 0 (xs.foldl max x) := by
          rw [← hM, hps]
          show List.foldl max (max 0 x) xs = _
          rw [foldl_max_shift]
        rcases le_or_lt (xs.foldl max x) 0 with hle | hlt
        · rw [h1, max_eq_left hle] at hp; exact absurd hp (lt_irrefl 0)
        · rw [h1, max_eq_right (le_of_lt hlt)]
      symm
      show idxOfQ (xs.foldl max x) (x :: xs) = (cumState sims sims.length).2
      rw [hT, ← hps]
      apply idxOfQ_spec
      · rw [prefixSums_length]; exact hk
      · rw [prefixSums_getD sims hk]; exact hPk
      · intro j hj
        have hjn : j < sims.length := lt_trans hj hk
        rw [prefixSums_getD sims hjn]
        exact ne_of_lt (hjlt j hj)
  · have h0 := (cum_invariant sims sims.length).2.2 hp
    unfold amendedCumIdx
    rw [if_neg (hM ▸ hp), h0]

/-- C1 (amended): for every sequence of per-segment similarity scores, the
coverage estimate equals the maximum of (1) the earliest index achieving the
maximum running sum provided that maximum is positive, and 0 when no running
sum is positive, and (2) the largest index whose individual similarity
exceeds 0.3 (0 when none); for an empty segment list the result is 0. -/
theorem find_covered_slides_eq_amended (sims : List ℚ) :
    find_covered_slides sims = amendedCoverage sims := by
  by_cases he : sims.isEmpty
  · unfold find_covered_slides amendedCoverage
    rw [if_pos he, if_pos he]
  · unfold amendedCoverage
    rw [if_neg he, find_covered_eq sims he, cumState_snd_eq]

unseal Rat.add Rat.mul Rat.inv Rat.sub Rat.ofScientific

/-- C1 counterexample: on similarities [-1/2, 3/10] the code returns 0 while
the claimed rule (unconditional earliest argmax of running sums, combined
with the threshold heuristic) demands 1: the running sums are [-1/2, -1/5],
maximised at index 1, but the loop never overwrites its 0-initialised
maximum with a negative running sum. -/
theorem C1_counterexample :
    find_covered_slides [-(1 : ℚ)/2, 3/10] = 0 ∧
      claimCoverage [-(1 : ℚ)/2, 3/10] = 1 := by
  exact ⟨by decide, by decide⟩

theorem cumState_snd_lt (sims : List ℚ) (hn : 0 < sims.length) :
    (cumState sims sims.length).2 < sims.length := by
  by_cases hp : 0 < maxPrefix sims sims.length
  · exact ((cum_invariant sims sims.length).2.1 hp).1
  · rw [(cum_invariant sims sims.length).2.2 hp]; exact hn

theorem specThresholdIdx_lt (sims : List ℚ) (hn : 0 < sims.length) :
    specThresholdIdx sims < sims.length := by
  unfold specThresholdIdx
  have hmem := foldl_max_mem ((List.range sims.length).filter (thPred sims)) 0
  rcases List.mem_cons.mp hmem with h | h
  · rw [h]; exact hn
  · exact List.mem_range.mp (List.mem_of_mem_filter h)

/-- C6: for every non-empty sequence of n per-segment similarity scores the
coverage estimate is an index in [0, n-1] (it is a Nat, hence never
negative), and for an empty sequence it is 0. -/
theorem C6_coverage_in_range (sims : List ℚ) :
    (sims = [] → find_covered_slides sims = 0) ∧
    (sims ≠ [] → find_covered_slides sims < sims.length) := by
  constructor
  · intro h; subst h; rfl
  · intro h
    have hne : ¬ sims.isEmpty = true := by
      cases sims
      · exact absurd rfl h
      · simp
    have hn : 0 < sims.length := List.length_pos.mpr h
    rw [find_covered_eq sims hne]
    exact max_lt (cumState_snd_lt sims hn) (specThresholdIdx_lt sims hn)

theorem C6_witness :
    find_covered_slides ([] : List ℚ) = 0 ∧ find_covered_slides [(1 : ℚ)/2] < 1 :=
  ⟨(C6_coverage_in_range []).1 rfl, (C6_coverage_in_range [(1 : ℚ)/2]).2 (by simp)⟩

/-- C7: if the similarity at position i exceeds 0.3 then the returned
coverage index is at least i. -/
theorem C7_threshold_raises (sims : List ℚ) (i : Nat) (hi : i < sims.length)
    (h : (3 : ℚ)/10 < sims.get ⟨i, hi⟩) : i ≤ find_covered_slides sims := by
  have hne : ¬ sims.isEmpty = true := by
    cases sims
    · simp at hi
    · simp
  rw [find_covered_eq sims hne]
  have hgetD : sims.getD i 0 = sims.get ⟨i, hi⟩ := by
    rw [List.getD_eq_getElem?_getD, List.getElem?_eq_getElem hi]
    rfl
  have hpred : thPred sims i = true := by
    unfold thPred
    rw [hgetD]
    exact decide_eq_true h
  have hmem : i ∈ (List.range sims.length).filter (thPred sims) :=
    List.mem_filter.mpr ⟨List.mem_range.mpr hi, hpred⟩
  have hle : i ≤ ((List.range sims.length).filter (thPred sims)).foldl max 0 :=
    foldl_max_le_mem _ 0 i hmem
  exact le_trans hle (le_max_right _ _)

theorem C7_witness : 0 ≤ find_covered_slides [(2 : ℚ)/5] :=
  C7_threshold_raises [(2 : ℚ)/5] 0 (by decide) (by decide)

/-! ## sentence splitter: C8 -/

/-- C8 counterexample: the fragment "abcdefghij" has trimmed length exactly
10 but the splitter discards it (the code keeps only trimmed fragments of
length strictly greater than 10), so the result is empty although the claim
says every fragment of trimmed length 10 or more is retained. -/
theorem C8_counterexample :
    ("abcdefghij".toList) ∈ regexSplitSent ("abcdefghij".toList) ∧
    (pyStrip ("abcdefghij".toList)).length = 10 ∧
    split_into_sentences ("abcdefghij".toList) = [] :=
  ⟨by decide, by decide, by decide⟩

/-- C8 (amended): the splitter splits on '.', '!', '?' followed by
whitespace, and the result consists exactly of the trimmed fragments whose
trimmed length strictly exceeds 10 (equivalently, is 11 or more). -/
theorem split_into_sentences_mem (text s : List Char) :
    s ∈ split_into_sentences text ↔
      ∃ frag, frag ∈ regexSplitSent text ∧ pyStrip frag = s ∧ 10 < s.length := by
  unfold split_into_sentences
  simp only [List.mem_map, List.mem_filter, decide_eq_true_eq]
  constructor
  · rintro ⟨frag, ⟨hmem, hlen⟩, hstrip⟩
    subst hstrip
    exact ⟨frag, hmem, rfl, hlen⟩
  · rintro ⟨frag, hmem, hstrip, hlen⟩
    subst hstrip
    exact ⟨frag, ⟨hmem, hlen⟩, rfl⟩

/-! ## concept filter: C2 -/

theorem head?_dropWhile_false (p : α → Bool) :
    ∀ (l : List α) (c : α), (l.dropWhile p).head? = some c → p c = false := by
  intro l
  induction l with
  | nil => intro c h; cases h
  | cons a l ih =>
      intro c h
      cases hpa : p a with
      | true =>
          rw [List.dropWhile_cons_of_pos hpa] at h
          exact ih c h
      | false =>
          rw [List.dropWhile_cons_of_neg (by simp [hpa])] at h
          rw [List.head?_cons] at h
          injection h with h
          rw [← h]
          exact hpa

theorem dropWhile_eq_self_of_head (p : α → Bool) (l : List α)
    (h : ∀ c, l.head? = some c → p c = false) : l.dropWhile p = l := by
  cases l with
  | nil => rfl
  | cons a l =>
      have ha := h a rfl
      rw [List.dropWhile_cons_of_neg (by simp [ha])]

theorem head?_of_isPrefix {l₁ l₂ : List α} (h : l₁ <+: l₂) {c : α}
    (hc : l₁.head? = some c) : l₂.head? = some c := by
  obtain ⟨t, rfl⟩ := h
  cases l₁ with
  | nil => cases hc
  | cons a l => rw [List.head?_cons] at hc; injection hc with hc; rw [← hc]; rfl

theorem getLast?_of_isSuffix {l₁ l₂ : List α} (h : l₁ <:+ l₂) (hne : l₁ ≠ []) :
    l₂.getLast? = l₁.getLast? := by
  obtain ⟨t, rfl⟩ := h
  exact List.getLast?_append_of_ne_nil t hne

theorem pyStrip_noLead (s : List Char) : noLead (pyStrip s) := by
  intro c hc
  unfold pyStrip at hc
  set m := s.dropWhile isPySpace with hm
  set r := m.reverse.dropWhile isPySpace with hr
  have hsuf : r <:+ m.reverse := List.dropWhile_suffix isPySpace
  have hpre : r.reverse <+: m := by
    have hrp : r.reverse <+: m.reverse.reverse := List.reverse_prefix.mpr hsuf
    rwa [List.reverse_reverse] at hrp
  have hm' : m.head? = some c := head?_of_isPrefix hpre hc
  exact head?_dropWhile_false isPySpace s c hm'

theorem pyStrip_noTrail (s : List Char) : noTrail (pyStrip s) := by
  intro c hc
  unfold pyStrip at hc
  rw [List.getLast?_reverse] at hc
  exact head?_dropWhile_false isPySpace _ c hc

theorem stripBullets_suffix (y : List Char) : stripBullets y <:+ y := by
  unfold stripBullets
  by_cases hc : y.head?.any isPrefClass = true
  · rw [if_pos hc]
    exact (List.dropWhile_suffix isPySpace).trans (List.dropWhile_suffix isPrefClass)
  · rw [if_neg hc]

theorem stripBullets_noLead {y : List Char} (hL : noLead y) :
    noLead (stripBullets y) := by
  unfold stripBullets
  by_cases hc : y.head?.any isPrefClass = true
  · rw [if_pos hc]
    intro c hcc
    exact head?_dropWhile_false isPySpace _ c hcc
  · rw [if_neg hc]
    exact hL

theorem stripBullets_noTrail {y : List Char} (hT : noTrail y) :
    noTrail (stripBullets y) := by
  intro c hc
  have hne : stripBullets y ≠ [] := by
    intro h0
    rw [h0] at hc
    cases hc
  have heq := getLast?_of_isSuffix (stripBullets_suffix y) hne
  exact hT c (heq.trans hc)

theorem pyStrip_eq_self {l : List Char} (h1 : noLead l) (h2 : noTrail l) :
    pyStrip l = l := by
  unfold pyStrip
  rw [dropWhile_eq_self_of_head _ _ h1]
  have hrev : l.reverse.dropWhile isPySpace = l.reverse := by
    apply dropWhile_eq_self_of_head
    intro c hc
    rw [List.head?_reverse] at hc
    exact h2 c hc
  rw [hrev, List.reverse_reverse]

theorem stripBullets_eq_self {l : List Char} (h : bulletFree l = true) :
    stripBullets l = l := by
  have hc : l.head?.any isPrefClass = false := by
    simpa [bulletFree] using h
  unfold stripBullets
  rw [if_neg (by simp [hc])]

theorem cleanConcept_some {c x : List Char} (h : cleanConcept c = some x) :
    x = stripBullets (pyStrip c) ∧ passesChecks x = true := by
  simp only [cleanConcept] at h
  split_ifs at h with h1 h2 h3
  have hx := Option.some.inj h
  exact ⟨hx.symm, hx ▸ h3⟩

theorem passesChecks_ne_nil {x : List Char} (h : passesChecks x = true) :
    x ≠ [] := by
  intro hnil
  rw [hnil] at h
  exact absurd h (by decide)

theorem cleanConcept_fixed {c x : List Char} (h : cleanConcept c = some x)
    (hb : bulletFree x = true) : cleanConcept x = some x := by
  obtain ⟨hx, hp⟩ := cleanConcept_some h
  have hne : x ≠ [] := passesChecks_ne_nil hp
  have hL : noLead x := by rw [hx]; exact stripBullets_noLead (pyStrip_noLead c)
  have hT : noTrail x := by rw [hx]; exact stripBullets_noTrail (pyStrip_noTrail c)
  have hstrip : pyStrip x = x := pyStrip_eq_self hL hT
  have hsb : stripBullets x = x := stripBullets_eq_self hb
  have hE : x.isEmpty = false := by
    cases x with
    | nil => exact absurd rfl hne
    | cons a t => rfl
  simp only [cleanConcept, hstrip, hsb, hE, hp]
  simp

theorem mem_cleanSet {x y : List Char} :
    y ∈ cleanSet x ↔ cleanConcept x = some y := by
  unfold cleanSet
  cases hc : cleanConcept x with
  | none => simp
  | some z => simp [Finset.mem_singleton, eq_comm]

/-- C2 counterexample: on the set containing only "1. 2. foo" the filter
produces the singleton set containing "2. foo" (one bullet-numbering prefix
is removed), and filtering that output again removes the remaining prefix
and then rejects "foo" as too short, so the double filter differs from the
single filter. -/
theorem C2_counterexample :
    filter_concepts (filter_concepts {("1. 2. foo".toList)})
      ≠ filter_concepts {("1. 2. foo".toList)} := by decide

/-- C2 (amended): filtering is idempotent on every concept set whose
filtered elements do not begin with a digit, dot, closing parenthesis or
hyphen (the bullet/numbering prefix class); on such sets
filterConcepts(filterConcepts(S)) = filterConcepts(S). -/
theorem filter_concepts_idem (S : Finset (List Char))
    (h : ∀ x ∈ filter_concepts S, bulletFree x = true) :
    filter_concepts (filter_concepts S) = filter_concepts S := by
  apply Finset.ext
  intro y
  constructor
  · intro hy
    obtain ⟨x, hxS, hyx⟩ := Finset.mem_biUnion.mp hy
    have hcx : cleanConcept x = some y := mem_cleanSet.mp hyx
    have hfix : cleanConcept x = some x := by
      obtain ⟨c0, hc0S, hc0⟩ := Finset.mem_biUnion.mp hxS
      exact cleanConcept_fixed (mem_cleanSet.mp hc0) (h x hxS)
    have : x = y := Option.some.inj (hfix.symm.trans hcx)
    rw [← this]
    exact hxS
  · intro hy
    apply Finset.mem_biUnion.mpr
    refine ⟨y, hy, mem_cleanSet.mpr ?_⟩
    obtain ⟨c0, hc0S, hc0⟩ := Finset.mem_biUnion.mp hy
    exact cleanConcept_fixed (mem_cleanSet.mp hc0) (h y hy)

theorem C2_witness :
    filter_concepts (filter_concepts {("model uses gradient data".toList)})
      = filter_concepts {("model uses gradient data".toList)} :=
  filter_concepts_idem _ (by decide)

/-! ## misconception detector: C3 and C4 -/

theorem bestMatch_single (sim : List Char → List Char → ℚ) (ns ref : List Char) :
    bestMatch sim ns [ref]
      = if (0 : ℚ) < sim ns ref then (sim ns ref, some 0) else (0, none) := rfl

theorem detect_single (sim : List Char → List Char → ℚ) (ns ref : List Char)
    (hns : split_into_sentences ns = [ns])
    (hls : split_into_sentences (List.intercalate [' '] [ref]) = [ref]) :
    detect sim ns [ref]
      = if ((1 : ℚ)/2 < sim ns ref ∧ (3 : ℚ)/10 < check_contradiction sim ns ref)
        then [⟨ns, extract_correction ref, 0⟩] else [] := by
  simp only [detect]
  rw [hns, hls]
  have he : [ns].enum = [(0, ns)] := rfl
  rw [he]
  simp only [List.filterMap_cons, List.filterMap_nil, detectStep]
  rw [bestMatch_single]
  by_cases h0 : (0 : ℚ) < sim ns ref
  · rw [if_pos h0]
    simp only []
    by_cases h5 : (1 : ℚ)/2 < sim ns ref
    · rw [if_pos h5]
      by_cases h3 : (3 : ℚ)/10 < check_contradiction sim ns ref
      · rw [if_pos (show (3 : ℚ)/10 < check_contradiction sim ns ([ref].getD 0 []) from h3),
            if_pos ⟨h5, h3⟩]
        rfl
      · rw [if_neg (show ¬ (3 : ℚ)/10 < check_contradiction sim ns ([ref].getD 0 []) from h3),
            if_neg (fun hc => h3 hc.2)]
    · rw [if_neg h5, if_neg (fun hc => h5 hc.1)]
  · rw [if_neg h0]
    have h5 : ¬ (1 : ℚ)/2 < sim ns ref := fun hc => h0 (lt_trans (by norm_num) hc)
    rw [if_neg (fun hc => h5 hc.1)]

/-- C3 counterexample: with a similarity oracle that rates every pair 1
(which exceeds both the 0.5 topical gate and the 0.6 re-embedding gate),
the pair of the claim scores 0 and is not flagged: both sentences contain
the numeric token "1", so their numeric-token sets are not disjoint and the
0.4 bonus is never added. -/
theorem C3_counterexample :
    ((1 : ℚ) > 3/5) ∧
    check_contradiction (fun _ _ => 1)
        ("The risk score ranges from 1 to 5.".toList)
        ("The risk score ranges from 1 to 20.".toList) = 0 ∧
    detect (fun _ _ => 1)
        ("The risk score ranges from 1 to 5.".toList)
        [("The risk score ranges from 1 to 20.".toList)] = [] :=
  ⟨by decide, by decide, by decide⟩

/-- C3 (amended): the claimed pair shares the numeric token "1", so for
every similarity oracle its heuristic score is 0 and it is not flagged; for
the note sentence with disjoint numeric tokens "The risk score ranges from
2 to 5." against the same reference, whenever the oracle rates the pair
above 0.6 the score is exactly 0.4 (hence at least 0.4, above the 0.3
flagging threshold), the pair is flagged as a misconception, and the
reported correction is the reference sentence truncated to 200 characters,
which is the reference sentence itself. -/
theorem C3_amended (sim : List Char → List Char → ℚ)
    (h : (3 : ℚ)/5 < sim ("The risk score ranges from 2 to 5.".toList)
        ("The risk score ranges from 1 to 20.".toList)) :
    check_contradiction sim ("The risk score ranges from 1 to 5.".toList)
        ("The risk score ranges from 1 to 20.".toList) = 0 ∧
    check_contradiction sim ("The risk score ranges from 2 to 5.".toList)
        ("The risk score ranges from 1 to 20.".toList) = 2/5 ∧
    detect sim ("The risk score ranges from 2 to 5.".toList)
        [("The risk score ranges from 1 to 20.".toList)]
      = [⟨("The risk score ranges from 2 to 5.".toList),
          extract_correction ("The risk score ranges from 1 to 20.".toList), 0⟩] ∧
    extract_correction ("The risk score ranges from 1 to 20.".toList)
      = ("The risk score ranges from 1 to 20.".toList) := by
  have hch : check_contradiction sim ("The risk score ranges from 2 to 5.".toList)
      ("The risk score ranges from 1 to 20.".toList) = 2/5 := by
    unfold check_contradiction
    rw [if_pos (by decide), if_pos h,
        show antonymScore (toLowerStr ("The risk score ranges from 2 to 5.".toList))
          (toLowerStr ("The risk score ranges from 1 to 20.".toList)) = 0 from by decide]
    rw [zero_add, min_eq_left (by norm_num)]
  refine ⟨rfl, hch, ?_, by decide⟩
  rw [detect_single sim _ _ (by decide) (by decide), if_pos]
  constructor
  · exact lt_trans (by norm_num) h
  · rw [hch]
    norm_num

/-- C4 counterexample: with a similarity oracle rating the pair 1 (over the
0.5 gate), the antonym heuristic gives the pair exactly score 0.3, and
since flagging requires the score to strictly exceed 0.3, the pair is not
flagged: detect returns the empty list. -/
theorem C4_counterexample :
    ((1 : ℚ) > 1/2) ∧
    check_contradiction (fun _ _ => 1)
        ("The tool is not mandatory.".toList)
        ("The tool is mandatory.".toList) = 3/10 ∧
    detect (fun _ _ => 1)
        ("The tool is not mandatory.".toList)
        [("The tool is mandatory.".toList)] = [] :=
  ⟨by decide, by decide, by decide⟩

/-- C4 (amended): for every similarity oracle, the antonym-pair heuristic
contributes exactly 0.3 for the pair (so the score is at least 0.3), but
because flagging requires the clamped score to strictly exceed the 0.3
threshold, the pair is never flagged as a misconception. -/
theorem C4_amended (sim : List Char → List Char → ℚ) :
    check_contradiction sim ("The tool is not mandatory.".toList)
        ("The tool is mandatory.".toList) = 3/10 ∧
    detect sim ("The tool is not mandatory.".toList)
        [("The tool is mandatory.".toList)] = [] := by
  have hch : check_contradiction sim ("The tool is not mandatory.".toList)
      ("The tool is mandatory.".toList) = 3/10 := rfl
  refine ⟨hch, ?_⟩
  rw [detect_single sim _ _ (by decide) (by decide), if_neg]
  rintro ⟨h5, h3⟩
  rw [hch] at h3
  exact absurd h3 (by norm_num)

theorem C3_witness :
    check_contradiction (fun _ _ => 1) ("The risk score ranges from 2 to 5.".toList)
        ("The risk score ranges from 1 to 20.".toList) = 2/5 ∧
    detect (fun _ _ => 1) ("The risk score ranges from 2 to 5.".toList)
        [("The risk score ranges from 1 to 20.".toList)]
      = [⟨("The risk score ranges from 2 to 5.".toList),
          extract_correction ("The risk score ranges from 1 to 20.".toList), 0⟩] :=
  ⟨(C3_amended (fun _ _ => 1) (by decide)).2.1,
   (C3_amended (fun _ _ => 1) (by decide)).2.2.1⟩

/-! ## detector output invariants: C10 -/

theorem detectStep_some {sim : List Char → List Char → ℚ}
    {ls : List (List Char)} {i : Nat} {s : List Char} {m : Misconception}
    (h : detectStep sim ls (i, s) = some m) : m.position = i ∧ m.text = s := by
  unfold detectStep at h
  rcases hbm : bestMatch sim s ls with ⟨mv, jo⟩
  rw [hbm] at h
  cases jo with
  | none => exact Option.noConfusion h
  | some j =>
      simp only [] at h
      split_ifs at h
      have hm := Option.some.inj h
      rw [← hm]
      exact ⟨rfl, rfl⟩

theorem filterMap_enumFrom_spec (f : Nat × List Char → Option Misconception)
    (hf : ∀ i s m, f (i, s) = some m → m.position = i ∧ m.text = s) :
    ∀ (l : List (List Char)) (n : Nat),
      (∀ m ∈ (List.enumFrom n l).filterMap f,
          n ≤ m.position ∧ m.position - n < l.length ∧
          l.getD (m.position - n) [] = m.text) ∧
      ((List.enumFrom n l).filterMap f).Pairwise
        (fun a b => a.position < b.position) := by
  intro l
  induction l with
  | nil =>
      intro n
      exact ⟨fun m hm => absurd hm (by simp), by simp⟩
  | cons s l ih =>
      intro n
      have he : List.enumFrom n (s :: l) = (n, s) :: List.enumFrom (n + 1) l := rfl
      rw [he]
      cases hf0 : f (n, s) with
      | none =>
          rw [List.filterMap_cons_none hf0]
          refine ⟨?_, (ih (n + 1)).2⟩
          intro m hm
          obtain ⟨h1, h2, h3⟩ := (ih (n + 1)).1 m hm
          refine ⟨le_trans (Nat.le_succ n) h1, ?_, ?_⟩
          · simp only [List.length_cons]
            omega
          · have hk : m.position - n = (m.position - (n + 1)) + 1 := by omega
            rw [hk, List.getD_cons_succ]
            exact h3
      | some m0 =>
          rw [List.filterMap_cons_some hf0]
          obtain ⟨hp0, ht0⟩ := hf n s m0 hf0
          constructor
          · intro m hm
            rcases List.mem_cons.mp hm with rfl | hm'
            · refine ⟨le_of_eq hp0.symm, ?_, ?_⟩
              · rw [hp0, Nat.sub_self]
                simp
              · rw [hp0, Nat.sub_self, List.getD_cons_zero, ht0]
            · obtain ⟨h1, h2, h3⟩ := (ih (n + 1)).1 m hm'
              refine ⟨le_trans (Nat.le_succ n) h1, ?_, ?_⟩
              · simp only [List.length_cons]
                omega
              · have hk : m.position - n = (m.position - (n + 1)) + 1 := by omega
                rw [hk, List.getD_cons_succ]
                exact h3
          · refine List.pairwise_cons.mpr ⟨?_, (ih (n + 1)).2⟩
            intro b hb
            have h1 := ((ih (n + 1)).1 b hb).1
            rw [hp0]
            omega

/-- C10: each misconception produced by detect carries as its position the
0-based index of its note sentence among the split note sentences (hence at
most one candidate per note sentence: its text is that sentence), and the
positions of the returned list are strictly increasing, hence pairwise
distinct. -/
theorem detect_positions (sim : List Char → List Char → ℚ)
    (notes_text : List Char) (slide_texts : List (List Char)) :
    (detect sim notes_text slide_texts).Pairwise
      (fun a b => a.position < b.position) ∧
    ∀ m ∈ detect sim notes_text slide_texts,
      m.position < (split_into_sentences notes_text).length ∧
      (split_into_sentences notes_text).getD m.position [] = m.text := by
  have hmain := filterMap_enumFrom_spec
      (detectStep sim (split_into_sentences (List.intercalate [' '] slide_texts)))
      (fun i s m hm => detectStep_some hm)
      (split_into_sentences notes_text) 0
  have hd : detect sim notes_text slide_texts
      = (List.enumFrom 0 (split_into_sentences notes_text)).filterMap
          (detectStep sim (split_into_sentences (List.intercalate [' '] slide_texts))) := rfl
  rw [hd]
  refine ⟨hmain.2, ?_⟩
  intro m hm
  obtain ⟨h1, h2, h3⟩ := hmain.1 m hm
  rw [Nat.sub_zero] at h2 h3
  exact ⟨h2, h3⟩

theorem C10_witness :
    (⟨("The risk score ranges from 2 to 5.".toList),
      extract_correction ("The risk score ranges from 1 to 20.".toList), 0⟩ :
        Misconception).position
      < (split_into_sentences ("The risk score ranges from 2 to 5.".toList)).length ∧
    (split_into_sentences ("The risk score ranges from 2 to 5.".toList)).getD 0 []
      = ("The risk score ranges from 2 to 5.".toList) :=
  (detect_positions (fun _ _ => 1) ("The risk score ranges from 2 to 5.".toList)
      [("The risk score ranges from 1 to 20.".toList)]).2
    ⟨("The risk score ranges from 2 to 5.".toList),
      extract_correction ("The risk score ranges from 1 to 20.".toList), 0⟩
    (by decide)

/-! ## degenerate inputs: C9 -/

/-- C9: on degenerate input every operation returns its identity/empty
result (and, being a total function of the embedding, never an error):
concept extraction on empty or whitespace-only text returns the empty set
whatever the extraction strategy, coverage estimation on an empty segment
list returns index 0, and misconception detection on empty notes text or an
empty segment list returns the empty candidate list for every similarity
oracle. -/
theorem degenerate_inputs :
    (∀ (extractor : List Char → Finset (List Char)) (text : List Char),
        (pyStrip text).isEmpty = true →
          extract_concepts_from_text extractor text = ∅) ∧
    find_covered_slides [] = 0 ∧
    (∀ (sim : List Char → List Char → ℚ) (slide_texts : List (List Char)),
        detect sim [] slide_texts = []) ∧
    (∀ (sim : List Char → List Char → ℚ) (notes_text : List Char),
        detect sim notes_text [] = []) := by
  refine ⟨?_, rfl, ?_, ?_⟩
  · intro ex text h
    unfold extract_concepts_from_text
    rw [if_pos h]
  · intro sim slide_texts
    have h : split_into_sentences ([] : List Char) = [] := rfl
    show (split_into_sentences []).enum.filterMap
        (detectStep sim (split_into_sentences (List.intercalate [' '] slide_texts))) = []
    rw [h]
    rfl
  · intro sim notes_text
    have h : split_into_sentences (List.intercalate [' '] []) = [] := rfl
    show (split_into_sentences notes_text).enum.filterMap
        (detectStep sim (split_into_sentences (List.intercalate [' '] []))) = []
    rw [h, List.filterMap_eq_nil_iff]
    intro p _
    rfl

theorem C9_witness :
    extract_concepts_from_text (fun _ => ∅) ("   ".toList) = ∅ ∧
    detect (fun _ _ => 0) [] [("slide one text here.".toList)] = [] ∧
    detect (fun _ _ => 0) ("some notes".toList) [] = [] :=
  ⟨degenerate_inputs.1 (fun _ => ∅) ("   ".toList) (by decide),
   degenerate_inputs.2.2.1 (fun _ _ => 0) [("slide one text here.".toList)],
   degenerate_inputs.2.2.2 (fun _ _ => 0) ("some notes".toList)⟩

/-! ## gap analyzer: C5 -/

theorem foldl_maxf_shift (f : List Char → ℚ) :
    ∀ (l : List (List Char)) (a b : ℚ),
      l.foldl (fun acc x => max acc (f x)) (max a b)
        = max a (l.foldl (fun acc x => max acc (f x)) b) := by
  intro l
  induction l with
  | nil => intro a b; rfl
  | cons c lc ih =>
      intro a b
      show lc.foldl (fun acc x => max acc (f x)) (max (max a b) (f c))
          = max a (lc.foldl (fun acc x => max acc (f x)) (max b (f c)))
      rw [max_assoc, ih]

theorem foldl_maxSim (sim : List Char → List Char → ℚ) (m n0 : List Char)
    (ns : List (List Char)) :
    (n0 :: ns).foldl (fun acc x => max acc (sim m x)) 0
      = max 0 (maxSimTo sim m (n0 :: ns)) := by
  show ns.foldl (fun acc x => max acc (sim m x)) (max 0 (sim m n0))
      = max 0 (maxSimTo sim m (n0 :: ns))
  rw [foldl_maxf_shift (sim m) ns 0 (sim m n0)]
  rfl

/-- C5: when the filtered note-concept set is empty, findMissingConcepts
returns up to 10 elements of the filtered exact-string difference unchanged
by the similarity gate; when it is non-empty, the result is the candidates
of the exact-string difference whose maximum embedding similarity to every
note concept is strictly below 0.75, capped at 10 entries. -/
theorem find_missing_spec (sim : List Char → List Char → ℚ)
    (X Y : Finset (List Char)) :
    (filter_concepts Y = ∅ →
       find_missing_concepts sim X Y
         = ((filter_concepts X \ filter_concepts Y).sort (· ≤ ·)).take 10) ∧
    (filter_concepts Y ≠ ∅ →
       find_missing_concepts sim X Y
         = (((filter_concepts X \ filter_concepts Y).sort (· ≤ ·)).filter
             (fun m =>
               maxSimTo sim m ((filter_concepts Y).sort (· ≤ ·)) < (3 : ℚ)/4)).take 10) := by
  constructor
  · intro hN
    simp only [find_missing_concepts]
    rw [hN]
    by_cases hm : filter_concepts X \ (∅ : Finset (List Char)) = ∅
    · rw [if_pos hm, hm, Finset.sort_empty]
      rfl
    · rw [if_neg hm, Finset.sort_empty]
      simp
  · intro hN
    have hsort : (filter_concepts Y).sort (· ≤ ·) ≠ [] := by
      intro h0
      have hlen : ((filter_concepts Y).sort (· ≤ ·)).length
          = (filter_concepts Y).card := Finset.length_sort _
      rw [h0] at hlen
      simp only [List.length_nil] at hlen
      exact hN (Finset.card_eq_zero.mp hlen.symm)
    rcases hsn : (filter_concepts Y).sort (· ≤ ·) with _ | ⟨n0, ns⟩
    · exact absurd hsn hsort
    · simp only [find_missing_concepts]
      by_cases hm : filter_concepts X \ filter_concepts Y = ∅
      · rw [if_pos hm, hm, Finset.sort_empty]
        rfl
      · rw [if_neg hm, hsn]
        rw [if_neg (by simp)]
        congr 1
        apply List.filter_congr
        intro m _
        rw [foldl_maxSim sim m n0 ns]
        apply decide_eq_decide.mpr
        constructor
        · intro hlt
          exact (max_lt_iff.mp hlt).2
        · intro hlt
          exact max_lt (by norm_num) hlt

theorem C5_witness :
    find_missing_concepts (fun _ _ => 0) {("model uses gradient data".toList)} ∅
      = ((filter_concepts {("model uses gradient data".toList)}
            \ filter_concepts ∅).sort (· ≤ ·)).take 10 :=
  (find_missing_spec (fun _ _ => 0) {("model uses gradient data".toList)} ∅).1 rfl

end LCopilot
